import Mathlib

/-!
Verification of the Monte Carlo portfolio risk engine of `src/pages/MonteCarlo.py`.

The engine works on pandas frames of IEEE doubles.  We model a double that can
arise in this pipeline as an exact rational together with the special values
NaN (also standing for a missing pandas entry), plus and minus infinity.
Transcendental functions (`np.exp`, `np.log` on positive arguments) are taken
as abstract function parameters, since their float values are approximations
anyway; every claim below depends only on where those functions are applied,
never on their numeric output.
-/

namespace QuantLab

/-- Model of an IEEE double as stored in a pandas frame: a finite value is
carried exactly as a rational; `nan` doubles as the missing-data marker. -/
inductive FVal where
  | fin (q : ℚ)
  | pinf
  | ninf
  | nan
deriving DecidableEq

/-- IEEE addition on the value model. -/
def FVal.add : FVal → FVal → FVal
  | .nan, _ => .nan
  | _, .nan => .nan
  | .fin a, .fin b => .fin (a + b)
  | .fin _, .pinf => .pinf
  | .fin _, .ninf => .ninf
  | .pinf, .fin _ => .pinf
  | .ninf, .fin _ => .ninf
  | .pinf, .pinf => .pinf
  | .pinf, .ninf => .nan
  | .ninf, .pinf => .nan
  | .ninf, .ninf => .ninf

/-- IEEE multiplication on the value model. -/
def FVal.mul : FVal → FVal → FVal
  | .nan, _ => .nan
  | _, .nan => .nan
  | .fin a, .fin b => .fin (a * b)
  | .fin a, .pinf => if 0 < a then .pinf else if a < 0 then .ninf else .nan
  | .fin a, .ninf => if 0 < a then .ninf else if a < 0 then .pinf else .nan
  | .pinf, .fin b => if 0 < b then .pinf else if b < 0 then .ninf else .nan
  | .ninf, .fin b => if 0 < b then .ninf else if b < 0 then .pinf else .nan
  | .pinf, .pinf => .pinf
  | .pinf, .ninf => .ninf
  | .ninf, .pinf => .ninf
  | .ninf, .ninf => .pinf

/-- IEEE division on the value model (zero is the positive zero). -/
def FVal.div : FVal → FVal → FVal
  | .nan, _ => .nan
  | _, .nan => .nan
  | .fin a, .fin b =>
      if b = 0 then (if 0 < a then .pinf else if a < 0 then .ninf else .nan)
      else .fin (a / b)
  | .fin _, .pinf => .fin 0
  | .fin _, .ninf => .fin 0
  | .pinf, .fin b => if b < 0 then .ninf else .pinf
  | .ninf, .fin b => if b < 0 then .pinf else .ninf
  | .pinf, .pinf => .nan
  | .pinf, .ninf => .nan
  | .ninf, .pinf => .nan
  | .ninf, .ninf => .nan

/-- A pandas DataFrame as used by the engine: a date index (dates as integers)
and named columns of doubles; in a well-formed frame each column has one entry
per index element. -/
structure Frame where
  index : List ℤ
  cols : List (String × List FVal)
deriving DecidableEq

/-- `df[name]`: label lookup of a single column. -/
def colLookup (f : Frame) (name : String) : Option (List FVal) :=
  (f.cols.find? (fun c => c.1 == name)).map (fun c => c.2)

/-- `df[~df.index.duplicated(keep=last)]` of `get_exchange_rate_from_db`:
for each duplicated date keep the last row. -/
def dedupKeepLast : List (ℤ × ℚ) → List (ℤ × ℚ)
  | [] => []
  | r :: rest =>
      if rest.any (fun s => s.1 == r.1) then dedupKeepLast rest
      else r :: dedupKeepLast rest

/-- `get_exchange_rate_from_db` (MonteCarlo.py lines 87-119): the Supabase
query returns the rows of the `exchange_rates` table whose date lies in
`[start, stop]`; duplicate dates are dropped keeping the last one.  A DB rate
is always a present numeric value, hence `ℚ`. -/
def get_exchange_rate_from_db (rows : List (ℤ × ℚ)) (start stop : ℤ) :
    List (ℤ × ℚ) :=
  dedupKeepLast (rows.filter (fun r => decide (start ≤ r.1) && decide (r.1 ≤ stop)))

/-- The value the left join places in the FX column at date `d`: the rate
stored for `d`, or NaN when the FX series has no row for `d`. -/
def fxLookup (fx : List (ℤ × ℚ)) (d : ℤ) : FVal :=
  match fx.find? (fun r => r.1 == d) with
  | some r => .fin r.2
  | none => .nan

/-- One pass of pandas `ffill`: `last` is the most recent non-missing value
seen so far (NaN before any was seen). -/
def ffillFrom (last : FVal) : List FVal → List FVal
  | [] => []
  | x :: xs =>
      if x = .nan then last :: ffillFrom last xs else x :: ffillFrom x xs

/-- pandas `Series.ffill`. -/
def ffill (l : List FVal) : List FVal := ffillFrom .nan l

/-- pandas `Series.bfill`: a forward fill run from the right end. -/
def bfill (l : List FVal) : List FVal := (ffillFrom .nan l.reverse).reverse

/-- `get_merged_market_data` (MonteCarlo.py lines 121-144).  `df_stock` is the
frame returned by `get_stock_data` (already restricted to the requested
range); `rows` is the FX table behind the DB query.  If the stock frame is
empty the function returns None; if the fetched FX series is empty it
substitutes a constant rate of 1400.0 over the stock index; the merge is a
left join on the stock index and the FX column is forward- then back-filled. -/
def get_merged_market_data (df_stock : Frame) (rows : List (ℤ × ℚ))
    (start stop : ℤ) : Option Frame :=
  if df_stock.index.isEmpty then none
  else
    let df_exchange := get_exchange_rate_from_db rows start stop
    let joined :=
      if df_exchange.isEmpty then df_stock.index.map (fun _ => FVal.fin 1400)
      else df_stock.index.map (fxLookup df_exchange)
    let filled := bfill (ffill joined)
    some ⟨df_stock.index, df_stock.cols ++ [("USD_KRW", filled)]⟩

/-- `market_df[tickers]` (MonteCarlo.py line 202): pandas raises a KeyError
when a label list contains a column that is not in the frame. -/
def lookupCols (f : Frame) : List String → Option (List (List FVal))
  | [] => some []
  | t :: ts =>
      match colLookup f t, lookupCols f ts with
      | some c, some cs => some (c :: cs)
      | _, _ => none

/-- `.iloc[0]` of each selected column; None models the IndexError raised on
an empty frame. -/
def headsOf : List (List FVal) → Option (List FVal)
  | [] => some []
  | c :: cs =>
      match c.head?, headsOf cs with
      | some h, some hs => some (h :: hs)
      | _, _ => none

/-- Elementwise `Series / scalar`. -/
def seriesScalarDiv (s : List FVal) (c : FVal) : List FVal :=
  s.map (fun x => x.div c)

/-- Elementwise `Series * scalar`. -/
def seriesScalarMul (s : List FVal) (c : FVal) : List FVal :=
  s.map (fun x => x.mul c)

/-- Elementwise `Series * Series` (both share the frame index). -/
def seriesMul (a b : List FVal) : List FVal := List.zipWith FVal.mul a b

/-- Elementwise `Series + Series` (both share the frame index). -/
def seriesAdd (a b : List FVal) : List FVal := List.zipWith FVal.add a b

/-- The series added to `Portfolio_KRW` for one ticker (MonteCarlo.py lines
209-211): `(market_df[t] / base_prices[t]) * (market_df[USD_KRW] /
base_exchange) * weight`. -/
def tickerTerm (col fxCol : List FVal) (basePrice baseFx weight : FVal) :
    List FVal :=
  seriesScalarMul (seriesMul (seriesScalarDiv col basePrice)
    (seriesScalarDiv fxCol baseFx)) weight

/-- The `Portfolio_KRW` computation (MonteCarlo.py lines 196-211): equal
weight `investment / len(tickers)`, base prices `market_df[tickers].iloc[0]`
(KeyError when a ticker column is absent), base FX `market_df[USD_KRW]
.iloc[0]`, then for each ticker whose column exists the term above is
accumulated onto a series that starts at zero. -/
def portfolioKRW (f : Frame) (tickers : List String) (investment : ℚ) :
    Except String (List FVal) :=
  let weight : FVal := .fin (investment / (tickers.length : ℚ))
  match lookupCols f tickers with
  | none => .error "KeyError: columns not in index"
  | some tcols =>
    match colLookup f "USD_KRW" with
    | none => .error "KeyError: USD_KRW"
    | some fxCol =>
      match headsOf tcols, fxCol.head? with
      | some basePrices, some baseFx =>
          let pairs := tickers.zip basePrices
          let zero := f.index.map (fun _ => FVal.fin 0)
          Except.ok (pairs.foldl (fun acc tp =>
            match colLookup f tp.1 with
            | some col => seriesAdd acc (tickerTerm col fxCol tp.2 baseFx weight)
            | none => acc) zero)
      | _, _ => .error "IndexError: single positional indexer is out-of-bounds"

/-- Modelled from the spec (section 3, PortfolioValueSeries): the value at
date `i` is the sum over assets of
`allocation[asset] * price[asset, i]/price[asset, 0] * fx[i]/fx[0]`. -/
def specPortfolioValue (alloc : String → ℚ) (price : String → ℕ → ℚ)
    (fx : ℕ → ℚ) (tickers : List String) (i : ℕ) : ℚ :=
  (tickers.map (fun t => alloc t * (price t i / price t 0) * (fx i / fx 0))).sum

/-- A column holding the finite values `g 0, …, g (n-1)`. -/
def finColumn (g : ℕ → ℚ) (n : ℕ) : List FVal :=
  (List.range n).map (fun i => FVal.fin (g i))

/-- `np.random.choice(pool, …, replace=True)` at coordinate `(t, p)`: the RNG
is modelled by the arbitrary index stream `idx`; the draw is the pool element
at that index reduced mod the pool size. -/
def np_random_choice (pool : List ℚ) (idx : ℕ → ℕ → ℕ) (t p : ℕ) : ℚ :=
  pool.getD (idx t p % pool.length) 0

/-- `np.cumsum(..., axis=0)` along a column: entry `t` is the sum of the
entries `0, …, t`. -/
def np_cumsum (f : ℕ → ℚ) (t : ℕ) : ℚ := (Finset.range (t + 1)).sum f

/-- `run_monte_carlo` (MonteCarlo.py lines 146-158).  `expQ` stands for
`np.exp`; `idx` models the global numpy RNG consumed by
`np.random.choice` — the function takes no seed argument.  Row 0 is
`start_price` broadcast; row `t ≥ 1` is `start_price` times the exponential
of the cumulative sum of the first `t` sampled returns of that path. -/
def run_monte_carlo (hist_returns : List ℚ) (start_price : ℚ)
    (days simulations : ℕ) (expQ : ℚ → ℚ) (idx : ℕ → ℕ → ℕ) :
    Fin (days + 1) → Fin simulations → ℚ :=
  fun t p =>
    if t.val = 0 then start_price
    else start_price *
      expQ (np_cumsum (fun s => np_random_choice hist_returns idx s p.val) (t.val - 1))

/-- `Series.shift(1)`: NaN first, then all values but the last. -/
def shift1 (V : List FVal) : List FVal := FVal.nan :: V.dropLast

/-- `np.log` on the value model; `logQ` stands for the float logarithm on
positive finite arguments.  `log 0 = -inf`, `log` of a negative value or of
NaN is NaN, `log inf = inf`. -/
def flog (logQ : ℚ → ℚ) : FVal → FVal
  | .nan => .nan
  | .pinf => .pinf
  | .ninf => .nan
  | .fin q => if 0 < q then .fin (logQ q) else if q = 0 then .ninf else .nan

/-- `daily_returns` (MonteCarlo.py line 255):
`np.log(V / V.shift(1)).dropna()`. -/
def daily_returns (logQ : ℚ → ℚ) (V : List FVal) : List FVal :=
  ((List.zipWith FVal.div V (shift1 V)).map (flog logQ)).filter
    (fun x => decide (x ≠ FVal.nan))

/-- The guard of MonteCarlo.py line 257: the simulation (and everything after
it) runs exactly when `daily_returns` is non-empty; otherwise the page shows
the insufficient-data error of line 308. -/
def simulationRuns (logQ : ℚ → ℚ) (V : List FVal) : Bool :=
  !(daily_returns logQ V).isEmpty

/-- `np.mean` of a 1-d array. -/
def npMean (a : List ℚ) : ℚ := a.sum / (a.length : ℚ)

/-- `np.percentile(a, q)` with the default linear interpolation: sort, take
the fractional rank `h = (n-1)·q/100`, and interpolate between the order
statistics at positions `⌊h⌋` and `⌊h⌋+1`. -/
def npPercentile (a : List ℚ) (q : ℚ) : ℚ :=
  let s := a.insertionSort (fun x y => x ≤ y)
  let h : ℚ := ((s.length : ℚ) - 1) * q / 100
  let k : ℕ := ⌊h⌋.toNat
  let lo := s.getD k 0
  let hi := s.getD (k + 1) lo
  lo + (h - (k : ℚ)) * (hi - lo)

/-- The risk figures of MonteCarlo.py lines 264-267. -/
structure RiskSummary where
  mean : ℚ
  var95 : ℚ
  loss : ℚ
deriving DecidableEq

/-- The summarizer (MonteCarlo.py lines 264-267): `mean_val`, `var_95 =
np.percentile(final_values, 5)` and `risk_amount = current_value - var_95`,
all computed from the final row of the simulation paths. -/
def summarize (finals : List ℚ) (current : ℚ) : RiskSummary :=
  { mean := npMean finals
    var95 := npPercentile finals 5
    loss := current - npPercentile finals 5 }

/-- `sim_paths[-1, :]`: the final row of the path matrix. -/
def lastRow (days sims : ℕ) (M : Fin (days + 1) → Fin sims → ℚ) : List ℚ :=
  (List.finRange sims).map (fun p => M (Fin.last days) p)

/-! ### Helper lemmas about filling -/

theorem ffillFrom_of_ne_nan {last : FVal} (hl : last ≠ .nan) :
    ∀ {l : List FVal}, ∀ y ∈ ffillFrom last l, y ≠ FVal.nan := by
  intro l
  induction l generalizing last with
  | nil => intro y hy; simp [ffillFrom] at hy
  | cons x xs ih =>
    intro y hy
    by_cases hx : x = FVal.nan
    · rw [ffillFrom, if_pos hx] at hy
      rcases List.mem_cons.mp hy with rfl | hy2
      · exact hl
      · exact ih hl y hy2
    · rw [ffillFrom, if_neg hx] at hy
      rcases List.mem_cons.mp hy with rfl | hy2
      · exact hx
      · exact ih hx y hy2

theorem ffillFrom_id {l : List FVal} (h : ∀ x ∈ l, x ≠ FVal.nan) (last : FVal) :
    ffillFrom last l = l := by
  induction l generalizing last with
  | nil => rfl
  | cons x xs ih =>
    rw [ffillFrom, if_neg (h x (List.mem_cons_self x xs))]
    rw [ih (fun y hy => h y (List.mem_cons_of_mem x hy))]

theorem bfill_ffill_id {l : List FVal} (h : ∀ x ∈ l, x ≠ FVal.nan) :
    bfill (ffill l) = l := by
  rw [ffill, ffillFrom_id h, bfill,
    ffillFrom_id (fun y hy => h y (List.mem_reverse.mp hy)), List.reverse_reverse]

/-- Structure of a forward fill that starts with no previous value: the
result is a block of leading NaN entries followed by non-NaN entries, and the
tail block is empty only when the input was all NaN. -/
theorem ffill_split (l : List FVal) :
    ∃ k rest, ffillFrom .nan l = List.replicate k FVal.nan ++ rest ∧
      (∀ y ∈ rest, y ≠ FVal.nan) ∧ (rest = [] → ∀ x ∈ l, x = FVal.nan) := by
  induction l with
  | nil => exact ⟨0, [], rfl, by simp, by simp⟩
  | cons x xs ih =>
    by_cases hx : x = FVal.nan
    · obtain ⟨k, rest, heq, hrest, hempty⟩ := ih
      refine ⟨k + 1, rest, ?_, hrest, ?_⟩
      · rw [ffillFrom, if_pos hx, heq, List.replicate_succ]
        simp [hx]
      · intro he y hy
        rcases List.mem_cons.mp hy with rfl | hy2
        · exact hx
        · exact hempty he y hy2
    · refine ⟨0, x :: ffillFrom x xs, ?_, ?_, by simp⟩
      · rw [ffillFrom, if_neg hx]; rfl
      · intro y hy
        rcases List.mem_cons.mp hy with rfl | hy2
        · exact hx
        · exact ffillFrom_of_ne_nan hx y hy2

/-- If the input has at least one non-NaN entry, forward fill followed by
backward fill leaves no NaN at all. -/
theorem bfill_ffill_no_nan {l : List FVal} (h : ∃ x ∈ l, x ≠ FVal.nan) :
    ∀ y ∈ bfill (ffill l), y ≠ FVal.nan := by
  obtain ⟨k, rest, heq, hrest, hempty⟩ := ffill_split l
  have hrne : rest ≠ [] := by
    intro hr
    obtain ⟨x, hx, hxn⟩ := h
    exact hxn (hempty hr x hx)
  rw [ffill, bfill, heq, List.reverse_append, List.reverse_replicate]
  cases hrev : rest.reverse with
  | nil => exact absurd (List.reverse_eq_nil_iff.mp hrev) hrne
  | cons y t =>
    have hy : y ≠ FVal.nan := by
      apply hrest
      rw [← List.mem_reverse, hrev]
      exact List.mem_cons_self y t
    rw [List.cons_append, ffillFrom, if_neg hy]
    intro z hz
    rw [List.mem_reverse] at hz
    rcases List.mem_cons.mp hz with rfl | hz2
    · exact hy
    · exact ffillFrom_of_ne_nan hy z hz2

/-! ### Claim C1 -/

/-- Claim C1, counterexample.  The FX table has a row only at date 5, outside
the requested range [0, 1], so the FX series is entirely empty over the
range while stock data is present.  The aligner does not signal any error: it
returns a merged frame whose FX column is the fabricated constant 1400,
and the run proceeds to the downstream stages with it. -/
theorem claim_C1_counterexample :
    get_merged_market_data ⟨[0, 1], [("A", [.fin 10, .fin 11])]⟩ [(5, 1300)] 0 1
      = some ⟨[0, 1], [("A", [.fin 10, .fin 11]),
          ("USD_KRW", [.fin 1400, .fin 1400])]⟩ := by
  decide

/-- Claim C1 (amended): whenever the FX table has no row inside the requested
range while the stock frame is non-empty, `get_merged_market_data` does not
signal a DataUnavailable condition; it fabricates a constant substitute rate
of 1400.0 over the stock index (with only a UI warning) and returns the
merged frame, so all downstream stages run on the fabricated rate. -/
theorem claim_C1 (df_stock : Frame) (rows : List (ℤ × ℚ)) (start stop : ℤ)
    (hstock : df_stock.index ≠ [])
    (hfx : ∀ r ∈ rows, ¬(start ≤ r.1 ∧ r.1 ≤ stop)) :
    get_merged_market_data df_stock rows start stop
      = some ⟨df_stock.index,
          df_stock.cols ++
            [("USD_KRW", df_stock.index.map (fun _ => FVal.fin 1400))]⟩ := by
  have hdb : get_exchange_rate_from_db rows start stop = [] := by
    rw [get_exchange_rate_from_db]
    have : rows.filter (fun r => decide (start ≤ r.1) && decide (r.1 ≤ stop)) = [] := by
      rw [List.filter_eq_nil_iff]
      intro r hr
      simpa using hfx r hr
    rw [this]; rfl
  rw [get_merged_market_data, if_neg (by simp [hstock]), hdb]
  have hnn : ∀ x ∈ df_stock.index.map (fun _ => FVal.fin 1400), x ≠ FVal.nan := by
    intro x hx
    obtain ⟨d, _, rfl⟩ := List.mem_map.mp hx
    intro hc; cases hc
  simp only [List.isEmpty_nil, if_pos]
  rw [bfill_ffill_id hnn]

/-- Claim C1, witness for the amended theorem. -/
theorem claim_C1_witness :
    get_merged_market_data ⟨[3], [("B", [.fin 7])]⟩ [(9, 1250)] 0 4
      = some ⟨[3], [("B", [.fin 7]), ("USD_KRW", [.fin 1400])]⟩ :=
  claim_C1 ⟨[3], [("B", [.fin 7])]⟩ [(9, 1250)] 0 4 (by decide) (by decide)

/-! ### Claim C7 -/

/-- Claim C7, counterexample.  Date 1 lies in the requested range [0, 1] and
carries an FX observation, but no asset has data there; the left join keeps
only the stock dates, so date 1 does not appear in the aligned index — the
index is not the union of all dates with data. -/
theorem claim_C7_counterexample :
    get_merged_market_data ⟨[0], [("A", [.fin 10])]⟩ [(0, 1300), (1, 1310)] 0 1
      = some ⟨[0], [("A", [.fin 10]), ("USD_KRW", [.fin 1300])]⟩ ∧
    (1 : ℤ) ∉ [(0 : ℤ)] := by
  decide

/-- Claim C7 (amended): the aligned index is exactly the date index of the stock frame: the
index — the left join `df_stock.join(df_exchange)` never adds dates that only
the FX series has. -/
theorem claim_C7 (df_stock : Frame) (rows : List (ℤ × ℚ)) (start stop : ℤ)
    (hstock : df_stock.index ≠ []) :
    (get_merged_market_data df_stock rows start stop).map Frame.index
      = some df_stock.index := by
  rw [get_merged_market_data, if_neg (by simp [hstock])]
  rfl

/-- Claim C7, witness for the amended theorem. -/
theorem claim_C7_witness :
    (get_merged_market_data ⟨[2, 3], [("C", [.fin 1, .fin 2])]⟩
        [(2, 1290)] 2 3).map Frame.index = some [2, 3] :=
  claim_C7 ⟨[2, 3], [("C", [.fin 1, .fin 2])]⟩ [(2, 1290)] 2 3 (by decide)

/-! ### Claim C10 -/

theorem lookupCols_eq_none {f : Frame} {ts : List String}
    (h : ∃ t ∈ ts, colLookup f t = none) : lookupCols f ts = none := by
  induction ts with
  | nil => simp at h
  | cons t rest ih =>
    obtain ⟨u, hu, hnone⟩ := h
    rcases List.mem_cons.mp hu with rfl | hu2
    · rw [lookupCols, hnone]
    · rw [lookupCols, ih ⟨u, hu2, hnone⟩]
      cases colLookup f t <;> rfl

/-- Claim C10, counterexample.  One of the two requested symbols has no
column in the merged frame.  The claimed behavior — a silent skip producing a
half-weighted portfolio and no error — does not happen: the base-price
extraction `market_df[tickers].iloc[0]` raises a KeyError before the guarded
loop runs, so the valuation aborts with an error. -/
theorem claim_C10_counterexample :
    portfolioKRW ⟨[0], [("A", [.fin 10]), ("USD_KRW", [.fin 1000])]⟩
        ["A", "B"] 100
      = .error "KeyError: columns not in index" := by
  rfl

/-- Claim C10 (amended): whenever any requested symbol is absent from the
columns of the merged frame, the valuation fails with the KeyError raised by the
label-list selection `market_df[tickers]`; the per-symbol membership guard
inside the accumulation loop never silently values a strict subset of the symbols for a
frame with missing symbols. -/
theorem claim_C10 (f : Frame) (ts : List String) (inv : ℚ)
    (h : ∃ t ∈ ts, colLookup f t = none) :
    portfolioKRW f ts inv = .error "KeyError: columns not in index" := by
  rw [portfolioKRW, lookupCols_eq_none h]

/-- Claim C10, witness for the amended theorem. -/
theorem claim_C10_witness :
    portfolioKRW ⟨[0, 1], [("MSFT", [.fin 3, .fin 4]),
        ("USD_KRW", [.fin 1000, .fin 1000])]⟩ ["MSFT", "NVDA"] 500
      = .error "KeyError: columns not in index" :=
  claim_C10 ⟨[0, 1], [("MSFT", [.fin 3, .fin 4]),
      ("USD_KRW", [.fin 1000, .fin 1000])]⟩ ["MSFT", "NVDA"] 500 (by decide)

/-! ### Claim C5 -/

/-- The consecutive-pair ratio series: `pairRatios prev l` is elementwise
`l[i] / l[i-1]` with `l[-1] = prev`. -/
def pairRatios (prev : FVal) : List FVal → List FVal
  | [] => []
  | x :: xs => x.div prev :: pairRatios x xs

theorem zipWith_div_shift :
    ∀ (l : List FVal) (prev : FVal),
      List.zipWith FVal.div l (prev :: l.dropLast) = pairRatios prev l := by
  intro l
  induction l with
  | nil => intro prev; rfl
  | cons x xs ih =>
    intro prev
    cases xs with
    | nil => rfl
    | cons y ys =>
      rw [List.dropLast_cons₂, List.zipWith_cons_cons, pairRatios, ← ih x]

theorem daily_returns_eq_pairRatios (logQ : ℚ → ℚ) (V : List FVal) :
    daily_returns logQ V =
      ((pairRatios FVal.nan V).map (flog logQ)).filter
        (fun x => decide (x ≠ FVal.nan)) := by
  rw [daily_returns, shift1, zipWith_div_shift]

theorem pairRatios_pos_length (logQ : ℚ → ℚ) :
    ∀ (l : List FVal) (p : ℚ), 0 < p →
      (∀ x ∈ l, ∃ q, x = FVal.fin q ∧ 0 < q) →
      (((pairRatios (FVal.fin p) l).map (flog logQ)).filter
        (fun x => decide (x ≠ FVal.nan))).length = l.length := by
  intro l
  induction l with
  | nil => intro p _ _; rfl
  | cons x xs ih =>
    intro p hp hall
    obtain ⟨q, rfl, hq⟩ := hall x (List.mem_cons_self x xs)
    have hdiv : FVal.div (.fin q) (.fin p) = .fin (q / p) := by
      rw [FVal.div, if_neg (ne_of_gt hp)]
    have hqp : 0 < q / p := div_pos hq hp
    rw [pairRatios, List.map_cons, hdiv, flog, if_pos hqp, List.filter_cons]
    have : decide (FVal.fin (logQ (q / p)) ≠ FVal.nan) = true := by
      simp
    rw [if_pos this, List.length_cons,
      ih q hq (fun y hy => hall y (List.mem_cons_of_mem _ hy))]
    rfl

/-- Claim C5, counterexample.  A portfolio value series with two values, the
first of which is zero: the zero pair is not dropped (its log-return is the
retained value -inf, since `dropna` removes only NaN), so at most one valid
observation remains — fewer than 2 — and yet the insufficient-data branch is
not taken: the simulation gate is open. -/
theorem claim_C5_counterexample :
    daily_returns (fun q => q) [.fin 0, .fin 1] = [.pinf] ∧
    (daily_returns (fun q => q) [.fin 0, .fin 1]).length = 1 ∧
    simulationRuns (fun q => q) [.fin 0, .fin 1] = true := by
  refine ⟨?_, ?_, ?_⟩ <;> decide

/-- Claim C5 (amended): for a series of positive finite portfolio values the
extractor drops exactly the first observation, so `n` values yield `n - 1`
return observations; the insufficient-data error fires only when zero
observations remain, i.e. the simulation runs if and only if at least 2
values are present.  In particular exactly 2 valid values yield exactly 1
observation and the simulation proceeds rather than signalling
InsufficientHistory. -/
theorem claim_C5 (logQ : ℚ → ℚ) (V : List FVal)
    (hV : ∀ x ∈ V, ∃ q, x = FVal.fin q ∧ 0 < q) :
    (daily_returns logQ V).length = V.length - 1 ∧
    simulationRuns logQ V = decide (2 ≤ V.length) := by
  cases V with
  | nil => exact ⟨rfl, rfl⟩
  | cons v rest =>
    obtain ⟨q, rfl, hq⟩ := hV v (List.mem_cons_self v rest)
    have hlen : (daily_returns logQ (FVal.fin q :: rest)).length = rest.length := by
      rw [daily_returns_eq_pairRatios, pairRatios, List.map_cons]
      have h1 : FVal.div (.fin q) .nan = FVal.nan := rfl
      have h2 : flog logQ FVal.nan = FVal.nan := rfl
      rw [h1, h2, List.filter_cons, if_neg (by simp)]
      exact pairRatios_pos_length logQ rest q hq
        (fun y hy => hV y (List.mem_cons_of_mem _ hy))
    refine ⟨by rw [hlen, List.length_cons, Nat.add_sub_cancel], ?_⟩
    rw [simulationRuns]
    cases rest with
    | nil =>
      have hnil : daily_returns logQ [FVal.fin q] = [] :=
        List.length_eq_zero.mp (by simpa using hlen)
      rw [hnil]; rfl
    | cons w ws =>
      have hne : daily_returns logQ (FVal.fin q :: w :: ws) ≠ [] := by
        intro hc; rw [hc] at hlen; simp at hlen
      cases hd : daily_returns logQ (FVal.fin q :: w :: ws) with
      | nil => exact absurd hd hne
      | cons a as => simp [show (2 : ℕ) ≤ ws.length + 1 + 1 from by omega]

/-- Claim C5, witness for the amended theorem: exactly two positive values
yield exactly one return observation and the simulation gate is open. -/
theorem claim_C5_witness :
    (daily_returns (fun q => q) [.fin 1, .fin 2]).length = 2 - 1 ∧
    simulationRuns (fun q => q) [.fin 1, .fin 2] = decide (2 ≤ 2) :=
  claim_C5 (fun q => q) [.fin 1, .fin 2] (by
    intro x hx
    rcases List.mem_cons.mp hx with rfl | hx2
    · exact ⟨1, rfl, one_pos⟩
    · rcases List.mem_cons.mp hx2 with rfl | hx3
      · exact ⟨2, rfl, two_pos⟩
      · simp at hx3)

/-! ### Claim C2 -/

/-- Claim C2 (confirmed): for a non-empty return pool, horizon ≥ 1 and at
least one path, the simulator output — of shape `(days+1) × simulations` by
its type — has row 0 equal to `start_price` in every column; every row
`t ≥ 1` equals `start_price` times `exp` of the sum of the first `t` sampled
log-returns of that path; and every sample drawn by the modelled
`np.random.choice` is an element of the full historical pool (with
replacement: the draws are unconstrained across coordinates). -/
theorem claim_C2 (pool : List ℚ) (start : ℚ) (days sims : ℕ) (expQ : ℚ → ℚ)
    (idx : ℕ → ℕ → ℕ) (hpool : pool ≠ []) (hdays : 1 ≤ days) (hsims : 1 ≤ sims) :
    (∀ p : Fin sims,
      run_monte_carlo pool start days sims expQ idx ⟨0, Nat.succ_pos days⟩ p
        = start) ∧
    (∀ (t : Fin (days + 1)) (p : Fin sims), 1 ≤ t.val →
      run_monte_carlo pool start days sims expQ idx t p
        = start * expQ ((Finset.range t.val).sum
            (fun s => np_random_choice pool idx s p.val))) ∧
    (∀ t p : ℕ, np_random_choice pool idx t p ∈ pool) := by
  refine ⟨?_, ?_, ?_⟩
  · intro p; simp [run_monte_carlo]
  · intro t p ht
    have h0 : t.val ≠ 0 := by omega
    simp only [run_monte_carlo, if_neg h0, np_cumsum]
    rw [Nat.sub_add_cancel ht]
  · intro t p
    rw [np_random_choice]
    have hlen : 0 < pool.length := List.length_pos.mpr hpool
    have hm : idx t p % pool.length < pool.length := Nat.mod_lt _ hlen
    rw [List.getD_eq_getElem?_getD, List.getElem?_eq_getElem hm]
    simp only [Option.getD_some]
    exact List.getElem_mem hm

/-- Claim C2, witness. -/
theorem claim_C2_witness :
    (∀ p : Fin 1,
      run_monte_carlo [(1 : ℚ)/2] 100 1 1 (fun q => q) (fun _ _ => 0)
        ⟨0, Nat.succ_pos 1⟩ p = 100) ∧
    (∀ t p : ℕ,
      np_random_choice [(1 : ℚ)/2] (fun _ _ => 0) t p ∈ [(1 : ℚ)/2]) :=
  ⟨(claim_C2 [(1 : ℚ)/2] 100 1 1 (fun q => q) (fun _ _ => 0)
      (by decide) (by decide) (by decide)).1,
   (claim_C2 [(1 : ℚ)/2] 100 1 1 (fun q => q) (fun _ _ => 0)
      (by decide) (by decide) (by decide)).2.2⟩

/-! ### Claim C9 -/

/-- Claim C9, counterexample.  `run_monte_carlo` has no seed parameter: its
arguments are exactly `(hist_returns, start_price, days, simulations)`.  Two
invocations with identical values of all four arguments can return different
paths, because the ambient global RNG (modelled by the index stream) is not
part of the inputs — so the claimed seeded reproducibility does not exist in
the code. -/
theorem claim_C9_counterexample :
    run_monte_carlo [0, 7] 100 1 1 (fun q => q) (fun _ _ => 0) 1 0 ≠
    run_monte_carlo [0, 7] 100 1 1 (fun q => q) (fun _ _ => 1) 1 0 := by
  simp only [run_monte_carlo, np_cumsum, np_random_choice]
  norm_num [Finset.sum_range_one]

/-- Claim C9 (amended): the simulator takes no seed; its output is a
deterministic function of the inputs together with the drawn sample indices.
Two invocations whose RNG draws agree (mod the pool size) at every in-range
coordinate produce bit-identical path matrices. -/
theorem claim_C9 (pool : List ℚ) (start : ℚ) (days sims : ℕ) (expQ : ℚ → ℚ)
    (idx idx2 : ℕ → ℕ → ℕ)
    (h : ∀ t p, t < days → p < sims →
      idx t p % pool.length = idx2 t p % pool.length) :
    run_monte_carlo pool start days sims expQ idx
      = run_monte_carlo pool start days sims expQ idx2 := by
  funext t p
  by_cases h0 : t.val = 0
  · simp [run_monte_carlo, h0]
  · have htlt : t.val < days + 1 := t.isLt
    simp only [run_monte_carlo, if_neg h0, np_cumsum]
    have hsum : ∀ s ∈ Finset.range (t.val - 1 + 1),
        np_random_choice pool idx s p.val = np_random_choice pool idx2 s p.val := by
      intro s hs
      rw [Finset.mem_range] at hs
      have hsd : s < days := by omega
      rw [np_random_choice, np_random_choice, h s p.val hsd p.isLt]
    rw [Finset.sum_congr rfl hsum]

/-- Claim C9, witness for the amended theorem. -/
theorem claim_C9_witness :
    run_monte_carlo [(3 : ℚ), 4] 50 1 1 (fun q => q) (fun _ _ => 0)
      = run_monte_carlo [(3 : ℚ), 4] 50 1 1 (fun q => q)
          (fun t _ => if 5 ≤ t then 7 else 0) :=
  claim_C9 [(3 : ℚ), 4] 50 1 1 (fun q => q) (fun _ _ => 0)
    (fun t _ => if 5 ≤ t then 7 else 0)
    (fun t p ht hp => by
      have h0 : t = 0 := by omega
      subst h0
      rfl)

/-! ### Claim C6 -/

theorem FVal.add_nan : ∀ v : FVal, FVal.add v .nan = .nan := by
  intro v; cases v <;> rfl

theorem FVal.nan_add : ∀ v : FVal, FVal.add .nan v = .nan := by
  intro v; cases v <;> rfl

theorem FVal.nan_mul : ∀ v : FVal, FVal.mul .nan v = .nan := by
  intro v; cases v <;> rfl

theorem head?_seriesAdd {a b : List FVal} {x y : FVal}
    (ha : a.head? = some x) (hb : b.head? = some y) :
    (seriesAdd a b).head? = some (x.add y) := by
  cases a with
  | nil => simp at ha
  | cons a0 rest =>
    cases b with
    | nil => simp at hb
    | cons b0 rest2 =>
      simp only [List.head?_cons, Option.some.injEq] at ha hb
      rw [seriesAdd, List.zipWith_cons_cons, List.head?_cons, ha, hb]

theorem head?_tickerTerm {col fxCol : List FVal} {x y : FVal}
    (hc : col.head? = some x) (hf : fxCol.head? = some y)
    (bp bfx w : FVal) :
    (tickerTerm col fxCol bp bfx w).head?
      = some (((x.div bp).mul (y.div bfx)).mul w) := by
  cases col with
  | nil => simp at hc
  | cons c0 crest =>
    cases fxCol with
    | nil => simp at hf
    | cons f0 frest =>
      simp only [List.head?_cons, Option.some.injEq] at hc hf
      rw [tickerTerm, seriesScalarDiv, seriesScalarDiv, List.map_cons,
        List.map_cons, seriesMul, List.zipWith_cons_cons, seriesScalarMul,
        List.map_cons, List.head?_cons, hc, hf]

/-- The pairs `(ticker, base price)` built by `portfolioKRW` pair each ticker
with the first entry of its own column. -/
theorem zip_pairs_spec (f : Frame) :
    ∀ (ts : List String) (tcols : List (List FVal)) (bps : List FVal),
      lookupCols f ts = some tcols → headsOf tcols = some bps →
      ∀ pr ∈ ts.zip bps,
        ∃ col, colLookup f pr.1 = some col ∧ col.head? = some pr.2 := by
  intro ts
  induction ts with
  | nil =>
    intro tcols bps h1 h2 pr hpr
    rw [lookupCols] at h1
    obtain rfl := Option.some.inj h1
    rw [headsOf] at h2
    obtain rfl := Option.some.inj h2
    simp at hpr
  | cons t rest ih =>
    intro tcols bps h1 h2 pr hpr
    rw [lookupCols] at h1
    cases hc : colLookup f t with
    | none => rw [hc] at h1; cases h1
    | some c =>
      cases hr : lookupCols f rest with
      | none => rw [hc, hr] at h1; cases h1
      | some cs =>
        rw [hc, hr] at h1
        obtain rfl := Option.some.inj h1
        rw [headsOf] at h2
        cases hh : c.head? with
        | none => rw [hh] at h2; cases h2
        | some hd =>
          cases hhs : headsOf cs with
          | none => rw [hh, hhs] at h2; cases h2
          | some hds =>
            rw [hh, hhs] at h2
            obtain rfl := Option.some.inj h2
            rw [List.zip_cons_cons] at hpr
            rcases List.mem_cons.mp hpr with rfl | hpr2
            · exact ⟨c, hc, hh⟩
            · exact ih cs hds hr hhs pr hpr2

/-- Head of the accumulation loop: the head entry stays defined, and once it
is NaN it stays NaN (NaN is absorbing for the elementwise addition). -/
theorem fold_head_preserved (f : Frame) (fxCol : List FVal) (bfx w fxh : FVal)
    (hfxh : fxCol.head? = some fxh) :
    ∀ (ps : List (String × FVal)) (acc : List FVal) (v : FVal),
      (∀ pr ∈ ps, ∃ col, colLookup f pr.1 = some col ∧ col.head? = some pr.2) →
      acc.head? = some v →
      ∃ u, (ps.foldl (fun acc tp =>
          match colLookup f tp.1 with
          | some col => seriesAdd acc (tickerTerm col fxCol tp.2 bfx w)
          | none => acc) acc).head? = some u ∧ (v = FVal.nan → u = FVal.nan) := by
  intro ps
  induction ps with
  | nil => intro acc v _ hacc; exact ⟨v, hacc, fun h => h⟩
  | cons pr rest ih =>
    intro acc v hP hacc
    obtain ⟨col, hc, hh⟩ := hP pr (List.mem_cons_self pr rest)
    rw [List.foldl_cons]
    have hstep :
        (match colLookup f pr.1 with
          | some col => seriesAdd acc (tickerTerm col fxCol pr.2 bfx w)
          | none => acc)
          = seriesAdd acc (tickerTerm col fxCol pr.2 bfx w) := by
      rw [hc]
    rw [hstep]
    have hterm := head?_tickerTerm hh hfxh pr.2 bfx w
    have hhead := head?_seriesAdd hacc hterm
    obtain ⟨u, hu, himp⟩ := ih (seriesAdd acc (tickerTerm col fxCol pr.2 bfx w))
      _ (fun x hx => hP x (List.mem_cons_of_mem pr hx)) hhead
    refine ⟨u, hu, fun hv => himp ?_⟩
    rw [hv, FVal.nan_add]

/-- Claim C6, counterexample.  The date0 (first-row) price of asset A is zero; no
InvalidBaseline error is raised — the valuator returns a portfolio series,
and that series is NaN throughout (the zero baseline turns every ratio into
0/0). -/
theorem claim_C6_counterexample :
    portfolioKRW ⟨[0, 1], [("A", [.fin 0, .fin 0]),
        ("USD_KRW", [.fin 1, .fin 1])]⟩ ["A"] 100
      = .ok [.nan, .nan] := by
  rfl

/-- Claim C6 (amended): the valuator performs no baseline validation.
Whenever all requested columns exist and the frame is non-empty, it returns a
value series without signalling anything, and a zero or missing (NaN) date0
price for any requested asset makes the date0 portfolio value NaN — the
NaN/Inf entries propagate silently instead of an InvalidBaseline error. -/
theorem claim_C6 (f : Frame) (ts : List String) (inv : ℚ)
    (tcols : List (List FVal)) (bps : List FVal) (fxCol : List FVal)
    (bfx : FVal)
    (h1 : lookupCols f ts = some tcols)
    (h2 : headsOf tcols = some bps)
    (h3 : colLookup f "USD_KRW" = some fxCol)
    (h4 : fxCol.head? = some bfx)
    (h5 : ∃ pr ∈ ts.zip bps, pr.2 = FVal.fin 0 ∨ pr.2 = FVal.nan)
    (h6 : f.index ≠ []) :
    (portfolioKRW f ts inv).toOption.map List.head?
      = some (some FVal.nan) := by
  have hzero : (f.index.map (fun _ => FVal.fin 0)).head? = some (FVal.fin 0) := by
    cases hidx : f.index with
    | nil => exact absurd hidx h6
    | cons d ds => rfl
  obtain ⟨pr, hpr, hbad⟩ := h5
  obtain ⟨l₁, l₂, hsplit⟩ := List.append_of_mem hpr
  have hPall := zip_pairs_spec f ts tcols bps h1 h2
  rw [portfolioKRW]
  simp only [h1, h3, h2, h4]
  simp only [Except.toOption, Option.map_some, Option.some.injEq]
  rw [hsplit, List.foldl_append, List.foldl_cons]
  have hP1 : ∀ x ∈ l₁, ∃ col, colLookup f x.1 = some col ∧
      col.head? = some x.2 := by
    intro x hx
    exact hPall x (by rw [hsplit]; exact List.mem_append_left _ hx)
  obtain ⟨v, hv, _⟩ := fold_head_preserved f fxCol bfx
    (.fin (inv / (ts.length : ℚ))) bfx h4 l₁
    (f.index.map (fun _ => FVal.fin 0)) (FVal.fin 0) hP1 hzero
  obtain ⟨colb, hcb, hhb⟩ := hPall pr (by
    rw [hsplit]; exact List.mem_append_right _ (List.mem_cons_self pr l₂))
  have hstep :
      (match colLookup f pr.1 with
        | some col => seriesAdd (l₁.foldl (fun acc tp =>
            match colLookup f tp.1 with
            | some col => seriesAdd acc (tickerTerm col fxCol tp.2 bfx
                (.fin (inv / (ts.length : ℚ))))
            | none => acc) (f.index.map (fun _ => FVal.fin 0)))
            (tickerTerm col fxCol pr.2 bfx (.fin (inv / (ts.length : ℚ))))
        | none => l₁.foldl (fun acc tp =>
            match colLookup f tp.1 with
            | some col => seriesAdd acc (tickerTerm col fxCol tp.2 bfx
                (.fin (inv / (ts.length : ℚ))))
            | none => acc) (f.index.map (fun _ => FVal.fin 0)))
        = seriesAdd (l₁.foldl (fun acc tp =>
            match colLookup f tp.1 with
            | some col => seriesAdd acc (tickerTerm col fxCol tp.2 bfx
                (.fin (inv / (ts.length : ℚ))))
            | none => acc) (f.index.map (fun _ => FVal.fin 0)))
            (tickerTerm colb fxCol pr.2 bfx (.fin (inv / (ts.length : ℚ)))) := by
    rw [hcb]
  rw [hstep]
  have hcolb_head : colb.head? = some pr.2 := hhb
  have hterm := head?_tickerTerm hcolb_head h4 pr.2 bfx
    (.fin (inv / (ts.length : ℚ)))
  have htermnan : ((pr.2.div pr.2).mul (bfx.div bfx)).mul
      (FVal.fin (inv / (ts.length : ℚ))) = FVal.nan := by
    have hdd : pr.2.div pr.2 = FVal.nan := by
      rcases hbad with hb | hb <;> rw [hb] <;> rfl
    rw [hdd, FVal.nan_mul, FVal.nan_mul]
  have hheadnan := head?_seriesAdd hv hterm
  rw [htermnan, FVal.add_nan] at hheadnan
  obtain ⟨u, hu, himp⟩ := fold_head_preserved f fxCol bfx
    (.fin (inv / (ts.length : ℚ))) bfx h4 l₂ _ FVal.nan
    (fun x hx => hPall x (by
      rw [hsplit]
      exact List.mem_append_right _ (List.mem_cons_of_mem pr hx))) hheadnan
  exact congrArg some (by rw [hu, himp rfl])

/-- Claim C6, witness for the amended theorem. -/
theorem claim_C6_witness :
    (portfolioKRW ⟨[0, 1], [("A", [.fin 0, .fin 2]),
        ("USD_KRW", [.fin 1, .fin 1])]⟩ ["A"] 100).toOption.map List.head?
      = some (some FVal.nan) :=
  claim_C6 ⟨[0, 1], [("A", [.fin 0, .fin 2]), ("USD_KRW", [.fin 1, .fin 1])]⟩
    ["A"] 100 [[.fin 0, .fin 2]] [.fin 0] [.fin 1, .fin 1] (.fin 1)
    (by decide) (by decide) (by decide) (by decide) (by decide) (by decide)

/-! ### Claim C8 -/

theorem colLookup_append_single {cs : List (String × List FVal)} {nm : String}
    {col : List FVal} (h : ∀ c ∈ cs, c.1 ≠ nm) (idx : List ℤ) :
    colLookup ⟨idx, cs ++ [(nm, col)]⟩ nm = some col := by
  rw [colLookup]
  have h1 : cs.find? (fun c => c.1 == nm) = none := by
    rw [List.find?_eq_none]
    intro c hc
    simpa using h c hc
  rw [List.find?_append, h1]
  simp

/-- Claim C8 (confirmed): whenever the aligner produced a merged frame and at
least one date of the stock index has an FX observation (so the joined FX
column has at least one present value), the FX column of the result has no
missing entry: the forward fill then backward fill eliminates every gap, and
FX missingness cannot propagate into the valuation. -/
theorem claim_C8 (df_stock : Frame) (rows : List (ℤ × ℚ)) (start stop : ℤ)
    (hstock : df_stock.index ≠ [])
    (hname : ∀ c ∈ df_stock.cols, c.1 ≠ "USD_KRW")
    (hobs : ∃ d ∈ df_stock.index,
      fxLookup (get_exchange_rate_from_db rows start stop) d ≠ FVal.nan) :
    (get_merged_market_data df_stock rows start stop).map
        (fun f => (colLookup f "USD_KRW").map
          (fun col => col.all (fun x => decide (x ≠ FVal.nan))))
      = some (some true) := by
  have hne : get_exchange_rate_from_db rows start stop ≠ [] := by
    intro hnil
    obtain ⟨d, _, hd⟩ := hobs
    rw [hnil] at hd
    exact hd rfl
  rw [get_merged_market_data, if_neg (by simp [hstock])]
  simp only [List.isEmpty_eq_false_iff_exists_mem.mpr
    (List.exists_mem_of_ne_nil _ hne)]
  have hjoin : ∃ x ∈ df_stock.index.map
      (fxLookup (get_exchange_rate_from_db rows start stop)), x ≠ FVal.nan := by
    obtain ⟨d, hd, hdn⟩ := hobs
    exact ⟨_, List.mem_map_of_mem _ hd, hdn⟩
  have hnn := bfill_ffill_no_nan hjoin
  have hall : (bfill (ffill (df_stock.index.map
      (fxLookup (get_exchange_rate_from_db rows start stop))))).all
      (fun x => decide (x ≠ FVal.nan)) = true := by
    rw [List.all_eq_true]
    intro x hx
    simpa using hnn x hx
  refine congrArg some ?_
  simp only [Bool.false_eq_true, if_false]
  rw [colLookup_append_single hname]
  exact congrArg some hall

/-- Claim C8, witness. -/
theorem claim_C8_witness :
    (get_merged_market_data ⟨[0, 1], [("A", [.fin 1, .fin 2])]⟩
        [(0, 1300)] 0 1).map
        (fun f => (colLookup f "USD_KRW").map
          (fun col => col.all (fun x => decide (x ≠ FVal.nan))))
      = some (some true) :=
  claim_C8 ⟨[0, 1], [("A", [.fin 1, .fin 2])]⟩ [(0, 1300)] 0 1
    (by decide) (by decide) (by decide)

/-! ### Claim C4 -/

/-- The linear-interpolation percentile lies between the two order statistics
it interpolates. -/
theorem npPercentile_between (a : List ℚ) (q : ℚ) (s : List ℚ) (k : ℕ)
    (ha : a ≠ []) (hq0 : 0 ≤ q)
    (hs : s = a.insertionSort (fun x y => x ≤ y))
    (hk : k = (⌊((s.length : ℚ) - 1) * q / 100⌋).toNat) :
    s.getD k 0 ≤ npPercentile a q ∧
      npPercentile a q ≤ s.getD (k + 1) (s.getD k 0) := by
  have hslen : s.length = a.length := by
    rw [hs]; exact (List.perm_insertionSort _ a).length_eq
  have hn : 1 ≤ s.length := by
    rw [hslen]
    exact List.length_pos.mpr ha
  have hh0 : 0 ≤ ((s.length : ℚ) - 1) * q / 100 := by
    apply div_nonneg _ (by norm_num)
    apply mul_nonneg _ hq0
    have : (1 : ℚ) ≤ (s.length : ℚ) := by exact_mod_cast hn
    linarith
  have hkq : (k : ℚ) = ((⌊((s.length : ℚ) - 1) * q / 100⌋ : ℤ) : ℚ) := by
    rw [hk]
    exact_mod_cast congrArg (fun z : ℤ => (z : ℚ))
      (Int.toNat_of_nonneg (Int.floor_nonneg.mpr hh0))
  have hfrac0 : 0 ≤ ((s.length : ℚ) - 1) * q / 100 - (k : ℚ) := by
    rw [hkq]
    have := Int.floor_le (((s.length : ℚ) - 1) * q / 100)
    linarith
  have hfrac1 : ((s.length : ℚ) - 1) * q / 100 - (k : ℚ) ≤ 1 := by
    rw [hkq]
    have := Int.lt_floor_add_one (((s.length : ℚ) - 1) * q / 100)
    linarith
  have hlohi : s.getD k 0 ≤ s.getD (k + 1) (s.getD k 0) := by
    by_cases hcase : k + 1 < s.length
    · have hk1 : k < s.length := by omega
      have hsort : List.Sorted (· ≤ ·) s := by
        rw [hs]; exact List.sorted_insertionSort _ a
      rw [List.getD_eq_getElem?_getD, List.getElem?_eq_getElem hk1,
        List.getD_eq_getElem?_getD, List.getElem?_eq_getElem hcase]
      simpa using hsort.rel_get_of_lt
        (show (⟨k, hk1⟩ : Fin s.length) < ⟨k + 1, hcase⟩ from by
          simp [Fin.lt_def])
    · have hgd : s.getD (k + 1) (s.getD k 0) = s.getD k 0 := by
        rw [List.getD_eq_getElem?_getD, List.getElem?_eq_none (by omega)]
        rfl
      rw [hgd]
  have hmain : npPercentile a q
      = s.getD k 0 + (((s.length : ℚ) - 1) * q / 100 - (k : ℚ)) *
          (s.getD (k + 1) (s.getD k 0) - s.getD k 0) := by
    simp only [npPercentile]
    rw [← hs, ← hk]
  rw [hmain]
  constructor
  · have := mul_nonneg hfrac0
      (sub_nonneg.mpr hlohi)
    linarith
  · have h1 : (((s.length : ℚ) - 1) * q / 100 - (k : ℚ)) *
        (s.getD (k + 1) (s.getD k 0) - s.getD k 0)
        ≤ s.getD (k + 1) (s.getD k 0) - s.getD k 0 :=
      mul_le_of_le_one_left (sub_nonneg.mpr hlohi) hfrac1
    linarith

/-- Claim C4 (confirmed): the summarizer returns the arithmetic mean of the
final row, the 5th percentile of the final row computed by the numpy default
linear interpolation between consecutive order statistics (the bracket
conjunct), and `loss = current - var_95`.  The closed conjuncts check the
hand-computed reference `[900000, 950000, 1000000, 1050000, 1100000]` (5th
percentile 910000, loss 90000 from a current value of 1000000) and a bullish
pool where the loss is negative — it is not clamped to zero. -/
theorem claim_C4 (days sims : ℕ) (M : Fin (days + 1) → Fin sims → ℚ)
    (current : ℚ) (s : List ℚ) (k : ℕ) (hsims : 1 ≤ sims)
    (hs : s = (lastRow days sims M).insertionSort (fun x y => x ≤ y))
    (hk : k = (⌊((s.length : ℚ) - 1) * 5 / 100⌋).toNat) :
    ((summarize (lastRow days sims M) current).mean
        = (lastRow days sims M).sum / (sims : ℚ)) ∧
    ((summarize (lastRow days sims M) current).var95
        = npPercentile (lastRow days sims M) 5) ∧
    (s.getD k 0 ≤ (summarize (lastRow days sims M) current).var95 ∧
      (summarize (lastRow days sims M) current).var95
        ≤ s.getD (k + 1) (s.getD k 0)) ∧
    ((summarize (lastRow days sims M) current).loss
        = current - (summarize (lastRow days sims M) current).var95) ∧
    ((summarize [900000, 950000, 1000000, 1050000, 1100000] 1000000).var95
        = 910000 ∧
      (summarize [900000, 950000, 1000000, 1050000, 1100000] 1000000).loss
        = 90000) ∧
    ((summarize [2, 3, 4, 5, 6] 1).loss = -(6/5) ∧
      (summarize [2, 3, 4, 5, 6] 1).loss < 0) := by
  have hrow : (lastRow days sims M) ≠ [] := by
    intro hc
    have := congrArg List.length hc
    rw [lastRow, List.length_map, List.length_finRange] at this
    simp at this
    omega
  refine ⟨?_, rfl, ?_, rfl, ⟨?_, ?_⟩, ⟨?_, ?_⟩⟩
  · show npMean (lastRow days sims M) = (lastRow days sims M).sum / (sims : ℚ)
    rw [npMean, lastRow, List.length_map, List.length_finRange]
  · exact npPercentile_between (lastRow days sims M) 5 s k hrow
      (by norm_num) hs hk
  · show npPercentile [900000, 950000, 1000000, 1050000, 1100000] 5 = 910000
    norm_num [npPercentile, List.insertionSort, List.orderedInsert]
  · show (1000000 : ℚ) -
        npPercentile [900000, 950000, 1000000, 1050000, 1100000] 5 = 90000
    norm_num [npPercentile, List.insertionSort, List.orderedInsert]
  · show (1 : ℚ) - npPercentile [2, 3, 4, 5, 6] 5 = -(6/5)
    norm_num [npPercentile, List.insertionSort, List.orderedInsert]
  · show (1 : ℚ) - npPercentile [2, 3, 4, 5, 6] 5 < 0
    norm_num [npPercentile, List.insertionSort, List.orderedInsert]

/-- Claim C4, witness. -/
theorem claim_C4_witness :
    ((summarize (lastRow 1 2 (fun _ _ => 7)) 3).mean
        = (lastRow 1 2 (fun _ _ => 7)).sum / (2 : ℚ)) ∧
    ((summarize (lastRow 1 2 (fun _ _ => 7)) 3).var95
        = npPercentile (lastRow 1 2 (fun _ _ => 7)) 5) ∧
    (([(7 : ℚ), 7].getD 0 0 ≤ (summarize (lastRow 1 2 (fun _ _ => 7)) 3).var95 ∧
      (summarize (lastRow 1 2 (fun _ _ => 7)) 3).var95
        ≤ [(7 : ℚ), 7].getD (0 + 1) ([(7 : ℚ), 7].getD 0 0))) ∧
    ((summarize (lastRow 1 2 (fun _ _ => 7)) 3).loss
        = 3 - (summarize (lastRow 1 2 (fun _ _ => 7)) 3).var95) ∧
    ((summarize [900000, 950000, 1000000, 1050000, 1100000] 1000000).var95
        = 910000 ∧
      (summarize [900000, 950000, 1000000, 1050000, 1100000] 1000000).loss
        = 90000) ∧
    ((summarize [2, 3, 4, 5, 6] 1).loss = -(6/5) ∧
      (summarize [2, 3, 4, 5, 6] 1).loss < 0) :=
  claim_C4 1 2 (fun _ _ => 7) 3 [(7 : ℚ), 7] 0 (by decide)
    (by decide) (by norm_num)

/-! ### Claim C3 -/

theorem zipWith_map_same {α β γ δ : Type} (F : β → γ → δ) (f : α → β)
    (g : α → γ) :
    ∀ l : List α, List.zipWith F (l.map f) (l.map g)
      = l.map (fun a => F (f a) (g a)) := by
  intro l
  induction l with
  | nil => rfl
  | cons x xs ih =>
    rw [List.map_cons, List.map_cons, List.zipWith_cons_cons, ih, List.map_cons]

theorem zip_self_map {α β : Type} (g : α → β) :
    ∀ l : List α, l.zip (l.map g) = l.map (fun a => (a, g a)) := by
  intro l
  induction l with
  | nil => rfl
  | cons x xs ih =>
    rw [List.map_cons, List.zip_cons_cons, ih, List.map_cons]

theorem lookupCols_all_some {f : Frame} (g : String → List FVal) :
    ∀ ts : List String, (∀ t ∈ ts, colLookup f t = some (g t)) →
      lookupCols f ts = some (ts.map g) := by
  intro ts
  induction ts with
  | nil => intro _; rfl
  | cons t rest ih =>
    intro h
    rw [List.map_cons]
    simp only [lookupCols, h t (List.mem_cons_self t rest),
      ih (fun u hu => h u (List.mem_cons_of_mem t hu))]

theorem headsOf_map {α : Type} (g : α → List FVal) (b : α → FVal) :
    ∀ ts : List α, (∀ t ∈ ts, (g t).head? = some (b t)) →
      headsOf (ts.map g) = some (ts.map b) := by
  intro ts
  induction ts with
  | nil => intro _; rfl
  | cons t rest ih =>
    intro h
    rw [List.map_cons, List.map_cons]
    simp only [headsOf, h t (List.mem_cons_self t rest),
      ih (fun u hu => h u (List.mem_cons_of_mem t hu))]

theorem finColumn_head (g : ℕ → ℚ) (n : ℕ) (hn : 0 < n) :
    (finColumn g n).head? = some (FVal.fin (g 0)) := by
  cases n with
  | zero => omega
  | succ m =>
    rw [finColumn, List.range_succ_eq_map, List.map_cons, List.head?_cons]

theorem seriesScalarDiv_finColumn (g : ℕ → ℚ) (n : ℕ) (c : ℚ) (hc : c ≠ 0) :
    seriesScalarDiv (finColumn g n) (.fin c)
      = finColumn (fun i => g i / c) n := by
  rw [seriesScalarDiv, finColumn, finColumn, List.map_map]
  apply List.map_congr_left
  intro i _
  simp only [Function.comp_apply, FVal.div, if_neg hc]

theorem seriesScalarMul_finColumn (g : ℕ → ℚ) (n : ℕ) (c : ℚ) :
    seriesScalarMul (finColumn g n) (.fin c)
      = finColumn (fun i => g i * c) n := by
  rw [seriesScalarMul, finColumn, finColumn, List.map_map]
  apply List.map_congr_left
  intro i _
  simp only [Function.comp_apply, FVal.mul]

theorem seriesMul_finColumn (g h : ℕ → ℚ) (n : ℕ) :
    seriesMul (finColumn g n) (finColumn h n)
      = finColumn (fun i => g i * h i) n := by
  rw [seriesMul, finColumn, finColumn, finColumn, zipWith_map_same]
  apply List.map_congr_left
  intro i _
  simp only [FVal.mul]

theorem seriesAdd_finColumn (g h : ℕ → ℚ) (n : ℕ) :
    seriesAdd (finColumn g n) (finColumn h n)
      = finColumn (fun i => g i + h i) n := by
  rw [seriesAdd, finColumn, finColumn, finColumn, zipWith_map_same]
  apply List.map_congr_left
  intro i _
  simp only [FVal.add]

theorem tickerTerm_finColumn (p fx : ℕ → ℚ) (n : ℕ) (w : ℚ)
    (hb : p 0 ≠ 0) (he : fx 0 ≠ 0) :
    tickerTerm (finColumn p n) (finColumn fx n) (.fin (p 0)) (.fin (fx 0))
        (.fin w)
      = finColumn (fun i => p i / p 0 * (fx i / fx 0) * w) n := by
  rw [tickerTerm, seriesScalarDiv_finColumn p n (p 0) hb,
    seriesScalarDiv_finColumn fx n (fx 0) he, seriesMul_finColumn,
    seriesScalarMul_finColumn]

/-- The accumulation loop of `portfolioKRW` on frames of finite values: the
series value is the running sum of the per-ticker contribution
`price ratio * fx ratio * weight`. -/
theorem fold_finColumn (f : Frame) (price : String → ℕ → ℚ) (fxv : ℕ → ℚ)
    (w : ℚ) (n : ℕ) (hfx0 : fxv 0 ≠ 0) :
    ∀ (ps : List String) (A : ℕ → ℚ),
      (∀ t ∈ ps, colLookup f t = some (finColumn (price t) n) ∧
        price t 0 ≠ 0) →
      List.foldl (fun acc tp =>
          match colLookup f tp.1 with
          | some col => seriesAdd acc (tickerTerm col (finColumn fxv n) tp.2
              (.fin (fxv 0)) (.fin w))
          | none => acc)
        (finColumn A n) (ps.map (fun t => (t, FVal.fin (price t 0))))
        = finColumn (fun i => A i +
            (ps.map (fun t => price t i / price t 0 * (fxv i / fxv 0) * w)).sum)
            n := by
  intro ps
  induction ps with
  | nil =>
    intro A _
    simp only [List.map_nil, List.foldl_nil, List.sum_nil, add_zero]
  | cons t rest ih =>
    intro A h
    obtain ⟨hcol, hbase⟩ := h t (List.mem_cons_self t rest)
    rw [List.map_cons, List.foldl_cons]
    have hstep : (match colLookup f t with
        | some col => seriesAdd (finColumn A n)
            (tickerTerm col (finColumn fxv n) (FVal.fin (price t 0))
              (.fin (fxv 0)) (.fin w))
        | none => finColumn A n)
        = seriesAdd (finColumn A n)
            (tickerTerm (finColumn (price t) n) (finColumn fxv n)
              (.fin (price t 0)) (.fin (fxv 0)) (.fin w)) := by
      rw [hcol]
    rw [hstep, tickerTerm_finColumn (price t) fxv n w hbase hfx0,
      seriesAdd_finColumn,
      ih _ (fun u hu => h u (List.mem_cons_of_mem t hu))]
    rw [finColumn, finColumn]
    apply List.map_congr_left
    intro i _
    rw [List.map_cons, List.sum_cons]
    exact congrArg FVal.fin (by ring)

/-- Claim C3 (confirmed): on an aligned frame of present finite prices whose
date0 asset prices and FX rate are non-zero, with all requested symbols
present, the `Portfolio_KRW` series computed by the code equals, entry by
entry, the spec formula `Σ over assets of allocation × price ratio × fx
ratio` with the equal allocation `investment / (number of symbols)`; and the
value of that formula at date0 is exactly the investment amount (the
arithmetic here is exact rational arithmetic, so the floating-point epsilon
of the claim degenerates to equality). -/
theorem claim_C3 (f : Frame) (ts : List String) (inv : ℚ)
    (price : String → ℕ → ℚ) (fxv : ℕ → ℚ) (n : ℕ)
    (hn : f.index.length = n) (hpos : 0 < n) (hts : ts ≠ [])
    (hcols : ∀ t ∈ ts, colLookup f t = some (finColumn (price t) n))
    (hfx : colLookup f "USD_KRW" = some (finColumn fxv n))
    (hbase : ∀ t ∈ ts, price t 0 ≠ 0)
    (hfx0 : fxv 0 ≠ 0) :
    portfolioKRW f ts inv = Except.ok (finColumn
        (specPortfolioValue (fun _ => inv / (ts.length : ℚ)) price fxv ts)
        n) ∧
    specPortfolioValue (fun _ => inv / (ts.length : ℚ)) price fxv ts 0
      = inv := by
  have hlenpos : 0 < ts.length := List.length_pos.mpr hts
  have hlenne : (ts.length : ℚ) ≠ 0 := by
    exact_mod_cast Nat.pos_iff_ne_zero.mp hlenpos
  have hspec0 : specPortfolioValue (fun _ => inv / (ts.length : ℚ))
      price fxv ts 0 = inv := by
    rw [specPortfolioValue]
    have hmap : ts.map (fun t => inv / (ts.length : ℚ) *
        (price t 0 / price t 0) * (fxv 0 / fxv 0))
        = ts.map (fun _ => inv / (ts.length : ℚ)) := by
      apply List.map_congr_left
      intro t ht
      rw [div_self (hbase t ht), div_self hfx0, mul_one, mul_one]
    rw [hmap, List.map_const', List.sum_replicate, nsmul_eq_mul]
    field_simp
  refine ⟨?_, hspec0⟩
  have hlook : lookupCols f ts
      = some (ts.map (fun t => finColumn (price t) n)) :=
    lookupCols_all_some _ ts hcols
  have hheads : headsOf (ts.map (fun t => finColumn (price t) n))
      = some (ts.map (fun t => FVal.fin (price t 0))) :=
    headsOf_map _ _ ts (fun t _ => finColumn_head (price t) n hpos)
  have hfxhead : (finColumn fxv n).head? = some (.fin (fxv 0)) :=
    finColumn_head fxv n hpos
  rw [portfolioKRW]
  simp only [hlook, hfx, hheads, hfxhead]
  have hzero : f.index.map (fun _ => FVal.fin 0)
      = finColumn (fun _ => (0 : ℚ)) n := by
    rw [finColumn, List.map_const', List.map_const', hn, List.length_range]
  rw [hzero, zip_self_map]
  rw [fold_finColumn f price fxv (inv / (ts.length : ℚ)) n hfx0 ts
    (fun _ => (0 : ℚ)) (fun t ht => ⟨hcols t ht, hbase t ht⟩)]
  refine congrArg Except.ok ?_
  rw [finColumn, finColumn]
  apply List.map_congr_left
  intro i _
  refine congrArg FVal.fin ?_
  rw [zero_add, specPortfolioValue]
  refine congrArg List.sum (List.map_congr_left ?_)
  intro t _
  ring

/-- Claim C3, witness. -/
theorem claim_C3_witness :
    portfolioKRW
        ⟨[0, 1], [("A", finColumn (fun i => if i = 0 then 2 else 3) 2),
          ("USD_KRW", finColumn (fun i => if i = 0 then 1000 else 1100) 2)]⟩
        ["A"] 500
      = Except.ok (finColumn
          (specPortfolioValue (fun _ => 500 / ((1 : ℕ) : ℚ))
            (fun _ i => if i = 0 then 2 else 3)
            (fun i => if i = 0 then 1000 else 1100) ["A"]) 2) ∧
    specPortfolioValue (fun _ => 500 / ((1 : ℕ) : ℚ))
        (fun _ i => if i = 0 then 2 else 3)
        (fun i => if i = 0 then 1000 else 1100) ["A"] 0 = 500 :=
  claim_C3
    ⟨[0, 1], [("A", finColumn (fun i => if i = 0 then 2 else 3) 2),
      ("USD_KRW", finColumn (fun i => if i = 0 then 1000 else 1100) 2)]⟩
    ["A"] 500 (fun _ i => if i = 0 then 2 else 3)
    (fun i => if i = 0 then 1000 else 1100) 2
    (by decide) (by decide) (by decide)
    (by intro t ht; rcases List.mem_cons.mp ht with rfl | hh
        · rfl
        · simp at hh)
    (by decide)
    (by intro t ht; norm_num)
    (by norm_num)

end QuantLab
